import Mathlib

/-!
Verification of the role-based authorization engine (`PermissionManager`).

The source is a TypeScript class that, at construction time, flattens a
role-inheritance hierarchy into per-role closure caches and then answers
permission / role queries by set lookups.  We embed the data model and the
algorithms shallowly:

* `Role`, `Permission` — the two enums from `config.ts`;
* `RoleHierarchy`, `RoleBasedPermissions` — the shipped configuration tables;
* `crh` — the recursive closure computation `computeRoleHierarchy`, written
  with an explicit fuel argument (the TypeScript recursion terminates because
  the threaded `visited` set grows on every recursive call; fuel
  `Fintype.card Role` is provably enough, and we prove the value is
  independent of the fuel once it is);
* `computeRolePermissions`, `hasPermission`, `hasPermissions`,
  `hasAnyPermission`, `hasRole`, `getMaxRole`,
  `hasPermissionThroughRole` — the remaining methods, translated directly.

The hierarchy table is kept as a parameter `H : Role → List Role` (and the
grant table as `P : Role → List Permission`) so that properties quantified
over configurations can be stated; the shipped tables instantiate them.
-/

/-- The `Role` enum from `config.ts`. -/
inductive Role where
  | SUPER_ADMIN
  | ADMIN
  | MANAGER
  | PREMIUM_USER
  | USER
deriving DecidableEq, Fintype, Repr

/-- The `Permission` enum from `config.ts`. -/
inductive Permission where
  | PRODUCT_CREATE
  | PRODUCT_READ
  | PRODUCT_UPDATE
  | PRODUCT_DELETE
  | PRODUCT_REVIEW
  | USER_CREATE
  | USER_READ
  | USER_UPDATE
  | USER_DELETE
deriving DecidableEq, Fintype, Repr

open Role Permission

/-- The shipped `RoleHierarchy` table from `config.ts`: each role maps to the
ordered list of roles it directly inherits from. -/
def RoleHierarchy : Role → List Role
  | SUPER_ADMIN => [ADMIN]
  | ADMIN => [MANAGER]
  | MANAGER => [PREMIUM_USER]
  | PREMIUM_USER => [USER]
  | USER => []

/-- The shipped `RoleBasedPermissions` table from `config.ts`. -/
def RoleBasedPermissions : Role → List Permission
  | SUPER_ADMIN => []
  | ADMIN => [PRODUCT_DELETE, USER_DELETE]
  | MANAGER => [PRODUCT_CREATE, PRODUCT_UPDATE, USER_CREATE, USER_UPDATE, USER_READ]
  | PREMIUM_USER => [PRODUCT_REVIEW]
  | USER => [PRODUCT_READ]

/-- The per-principal `PermissionContext` interface: an ordered list of roles
and a list of directly granted permissions. -/
structure PermissionContext where
  roles : List Role
  permissions : List Permission

/-- The loop body of `computeRoleHierarchy`: the `forEach` over the inherited
roles of the current role.  For each inherited role it adds the role itself to
the result, recurses with the (threaded, already grown) visited set, and adds
everything the recursive call returned.  `crhf` stands for the recursive call
at the remaining fuel. -/
def crhList (crhf : Role → Finset Role → Finset Role × Finset Role) :
    List Role → Finset Role → Finset Role × Finset Role
  | [], visited => (∅, visited)
  | ir :: rest, visited =>
    (insert ir ((crhf ir visited).1 ∪ (crhList crhf rest (crhf ir visited).2).1),
      (crhList crhf rest (crhf ir visited).2).2)

/-- Recursion of `computeRoleHierarchy`, with fuel.  The TypeScript method
returns the empty set when `role` is already visited, otherwise marks `role`
visited and folds over `RoleHierarchy[role]`.  The mutated `visited` set is
threaded through as the second component of the result.  The fuel only ever
runs out on inputs the TypeScript recursion cannot reach (see
`crh_fuel_irrelevant`). -/
def crh (H : Role → List Role) : Nat → Role → Finset Role → Finset Role × Finset Role
  | 0, _, visited => (∅, visited)
  | fuel + 1, role, visited =>
    if role ∈ visited then (∅, visited)
    else crhList (crh H fuel) (H role) (insert role visited)

/-- Top-level `computeRoleHierarchy(role)` as called from the constructor: fresh empty
visited set; `Fintype.card Role` fuel is enough for the recursion to bottom
out exactly as the TypeScript one does. -/
def computeRoleHierarchy (H : Role → List Role) (role : Role) : Finset Role :=
  (crh H (Fintype.card Role) role ∅).1

/-- Embedding of `computeRolePermissions(role, visited)`.  The method is not recursive: it
checks the (vestigial) visited guard, then unions the role's own grants with
the grants of every role in its cached hierarchy closure. -/
def computeRolePermissions (H : Role → List Role) (P : Role → List Permission)
    (role : Role) (visited : Finset Role := ∅) : Finset Permission :=
  if role ∈ visited then ∅
  else (P role).toFinset ∪ (computeRoleHierarchy H role).biUnion fun ir => (P ir).toFinset

/-- Embedding of `hasPermissionThroughRole(roles, permission)`: some role whose cached
permission closure contains the permission. -/
def hasPermissionThroughRole (H : Role → List Role) (P : Role → List Permission)
    (roles : List Role) (permission : Permission) : Bool :=
  roles.any fun role => decide (permission ∈ computeRolePermissions H P role)

/-- Embedding of `hasPermission(requiredPermission)`: direct grant, or through a role. -/
def hasPermission (H : Role → List Role) (P : Role → List Permission)
    (ctx : PermissionContext) (requiredPermission : Permission) : Bool :=
  if requiredPermission ∈ ctx.permissions then true
  else hasPermissionThroughRole H P ctx.roles requiredPermission

/-- Embedding of `hasPermissions(requiredPermissions)`: `every` element passes
`hasPermission`. -/
def hasPermissions (H : Role → List Role) (P : Role → List Permission)
    (ctx : PermissionContext) (requiredPermissions : List Permission) : Bool :=
  requiredPermissions.all fun permission => hasPermission H P ctx permission

/-- Embedding of `hasAnyPermission(requiredPermissions)`: `some` element passes
`hasPermission`. -/
def hasAnyPermission (H : Role → List Role) (P : Role → List Permission)
    (ctx : PermissionContext) (requiredPermissions : List Permission) : Bool :=
  requiredPermissions.any fun permission => hasPermission H P ctx permission

/-- Embedding of `hasRole(requiredRole)`: some held role whose cached hierarchy closure
contains the required role, or which is the required role itself. -/
def hasRole (H : Role → List Role) (ctx : PermissionContext) (requiredRole : Role) : Bool :=
  ctx.roles.any fun role =>
    decide (requiredRole ∈ computeRoleHierarchy H role) || decide (role = requiredRole)

/-- Embedding of `getMaxRole()`: `reduce` over the held roles seeded with `roles[0]`; the
candidate is kept exactly when its cached closure contains the role being
examined.  JavaScript `reduce` with an explicit seed iterates over the whole
list, first element included.  On an empty list the seed `roles[0]` is the
absence value `undefined`, modelled as `none`. -/
def getMaxRole (H : Role → List Role) (ctx : PermissionContext) : Option Role :=
  match ctx.roles with
  | [] => none
  | r0 :: _ =>
    some (ctx.roles.foldl
      (fun maxRole currentRole =>
        if currentRole ∈ computeRoleHierarchy H maxRole then maxRole else currentRole)
      r0)

/-- The direct-inheritance edge relation of a hierarchy table. -/
def hEdge (H : Role → List Role) (a b : Role) : Prop := b ∈ H a

/-- A hierarchy table is acyclic when no role reaches itself through one or
more inheritance edges. -/
def Acyclic (H : Role → List Role) : Prop :=
  ∀ r : Role, ¬ Relation.TransGen (hEdge H) r r

/-- A permission is granted somewhere in a grant table when some role's
direct grant list contains it. -/
def grantedSomewhere (P : Role → List Permission) (p : Permission) : Prop :=
  ∃ r : Role, p ∈ P r

example : computeRoleHierarchy RoleHierarchy ADMIN = {MANAGER, PREMIUM_USER, USER} := by decide
example : computeRoleHierarchy RoleHierarchy USER = ∅ := by decide
example : hasPermission RoleHierarchy RoleBasedPermissions ⟨[USER], []⟩ PRODUCT_READ = true := by
  decide
example : getMaxRole RoleHierarchy ⟨[USER, ADMIN], []⟩ = some ADMIN := by decide

/-!
Reachability avoiding a set of roles.

`AReach H p a x` states that there is a path (possibly empty) from `a` to `x`
along inheritance edges of `H` all of whose nodes — endpoints included —
avoid the predicate `p`.  This is the notion the threaded `visited` set of
`computeRoleHierarchy` carves out.
-/

inductive AReach (H : Role → List Role) (p : Role → Prop) (a : Role) : Role → Prop
  | refl : ¬ p a → AReach H p a a
  | step {x y : Role} : AReach H p a x → y ∈ H x → ¬ p y → AReach H p a y

theorem AReach_mono {H : Role → List Role} {p q : Role → Prop} {a x : Role}
    (hpq : ∀ z, q z → p z) (h : AReach H p a x) : AReach H q a x := by
  induction h with
  | refl ha => exact AReach.refl fun hq => ha (hpq _ hq)
  | step _ hy hpy ih => exact AReach.step ih hy fun hq => hpy (hpq _ hq)

theorem AReach_congr {H : Role → List Role} {p q : Role → Prop} {a x : Role}
    (hpq : ∀ z, p z ↔ q z) : AReach H p a x ↔ AReach H q a x :=
  ⟨AReach_mono fun z hz => (hpq z).mpr hz, AReach_mono fun z hz => (hpq z).mp hz⟩

theorem AReach_start {H : Role → List Role} {p : Role → Prop} {a x : Role}
    (h : AReach H p a x) : ¬ p a := by
  induction h with
  | refl ha => exact ha
  | step _ _ _ ih => exact ih

theorem AReach_last {H : Role → List Role} {p : Role → Prop} {a x : Role}
    (h : AReach H p a x) : ¬ p x := by
  cases h with
  | refl ha => exact ha
  | step _ _ hpy => exact hpy

theorem AReach_trans {H : Role → List Role} {p : Role → Prop} {a b x : Role}
    (hab : AReach H p a b) (hbx : AReach H p b x) : AReach H p a x := by
  induction hbx with
  | refl _ => exact hab
  | step _ hy hpy ih => exact AReach.step ih hy hpy

/-- Stability of avoiding reachability under enlarging the avoided set by a
class `C` closed under edges that avoid `p`: any `p`-avoiding path either ends
inside `C` or avoids `C` altogether. -/
theorem AReach_stability {H : Role → List Role} {p C : Role → Prop} {b x : Role}
    (hC : ∀ u w, C u → w ∈ H u → ¬ p w → C w)
    (h : AReach H p b x) : C x ∨ AReach H (fun z => p z ∨ C z) b x := by
  induction h with
  | refl hb =>
    by_cases hCb : C b
    · exact Or.inl hCb
    · exact Or.inr (AReach.refl fun hz => hz.elim hb hCb)
  | step hax hy hpy ih =>
    rename_i u w
    by_cases hCw : C w
    · exact Or.inl hCw
    · rcases ih with hCu | h'
      · exact absurd (hC u w hCu hy hpy) hCw
      · exact Or.inr (AReach.step h' hy fun hz => hz.elim hpy hCw)

/-- Absorption: augmenting the avoided set by what `ir` reaches does not
change the union of what `ir` and `b` reach. -/
theorem AReach_absorb {H : Role → List Role} {p : Role → Prop} {ir b x : Role} :
    (AReach H p ir x ∨ AReach H (fun z => p z ∨ AReach H p ir z) b x) ↔
      (AReach H p ir x ∨ AReach H p b x) := by
  constructor
  · rintro (h | h)
    · exact Or.inl h
    · exact Or.inr (AReach_mono (fun z hz => Or.inl hz) h)
  · rintro (h | h)
    · exact Or.inl h
    · exact AReach_stability (fun u w hu hw hpw => AReach.step hu hw hpw) h

/-- Unfolding one step of the traversal: what `role` reaches while avoiding
`v` is `role` itself together with what its direct parents reach while also
avoiding `role`. -/
theorem AReach_cons_iff {H : Role → List Role} {v : Finset Role} {role x : Role}
    (hrole : role ∉ v) :
    AReach H (fun z => z ∈ v) role x ↔
      x = role ∨ ∃ ir ∈ H role, AReach H (fun z => z ∈ insert role v) ir x := by
  constructor
  · intro h
    induction h with
    | refl _ => exact Or.inl rfl
    | step hax hy hpy ih =>
      rename_i u w
      by_cases hw : w = role
      · exact Or.inl hw
      · rcases ih with hu | ⟨ir, hir, hx⟩
        · subst hu
          refine Or.inr ⟨w, hy, AReach.refl ?_⟩
          simp only [Finset.mem_insert]
          rintro (h' | h')
          · exact hw h'
          · exact hpy h'
        · refine Or.inr ⟨ir, hir, AReach.step hx hy ?_⟩
          simp only [Finset.mem_insert]
          rintro (h' | h')
          · exact hw h'
          · exact hpy h'
  · rintro (rfl | ⟨ir, hir, hx⟩)
    · exact AReach.refl hrole
    · have hirn : ir ∉ insert role v := AReach_start hx
      have h1 : AReach H (fun z => z ∈ v) role ir := by
        refine AReach.step (AReach.refl hrole) hir ?_
        intro h'
        exact hirn (Finset.mem_insert_of_mem h')
      refine AReach_trans h1 (AReach_mono ?_ hx)
      intro z hz
      exact Finset.mem_insert_of_mem hz

/-- With nothing to avoid, avoiding reachability is reflexive-transitive
closure of the inheritance edges. -/
theorem AReach_empty_iff {H : Role → List Role} {a x : Role} :
    AReach H (fun z => z ∈ (∅ : Finset Role)) a x ↔ Relation.ReflTransGen (hEdge H) a x := by
  constructor
  · intro h
    induction h with
    | refl _ => exact Relation.ReflTransGen.refl
    | step _ hy _ ih => exact Relation.ReflTransGen.tail ih hy
  · intro h
    induction h with
    | refl => exact AReach.refl (by simp)
    | tail _ hbc ih => exact AReach.step ih hbc (by simp)

/-!
Specification of the closure computation.

The recursion of `computeRoleHierarchy` is bounded by the growth of the
`visited` set; `unvisited` counts how many roles are still unvisited, and
serves both as the fuel bound and as the termination measure of the
TypeScript recursion.
-/

def unvisited (v : Finset Role) : Nat := (Finset.univ \ v).card

theorem unvisited_mono {v w : Finset Role} (h : v ⊆ w) : unvisited w ≤ unvisited v :=
  Finset.card_le_card (Finset.sdiff_subset_sdiff (Finset.Subset.refl _) h)

theorem unvisited_insert_lt {v : Finset Role} {role : Role} (h : role ∉ v) :
    unvisited (insert role v) < unvisited v := by
  unfold unvisited
  rw [Finset.sdiff_insert]
  exact Finset.card_erase_lt_of_mem (Finset.mem_sdiff.mpr ⟨Finset.mem_univ _, h⟩)

theorem unvisited_eq_zero {v : Finset Role} (h : unvisited v = 0) : ∀ x : Role, x ∈ v := by
  intro x
  have hsub : Finset.univ ⊆ v := Finset.sdiff_eq_empty_iff_subset.mp (Finset.card_eq_zero.mp h)
  exact hsub (Finset.mem_univ x)

theorem crhList_visited_mono (crhf : Role → Finset Role → Finset Role × Finset Role)
    (hmono : ∀ r v, v ⊆ (crhf r v).2) :
    ∀ (rs : List Role) (v : Finset Role), v ⊆ (crhList crhf rs v).2 := by
  intro rs
  induction rs with
  | nil => intro v; exact Finset.Subset.refl v
  | cons ir rest ih =>
    intro v
    exact Finset.Subset.trans (hmono ir v) (ih (crhf ir v).2)

theorem crh_visited_mono (H : Role → List Role) :
    ∀ (f : Nat) (role : Role) (v : Finset Role), v ⊆ (crh H f role v).2 := by
  intro f
  induction f with
  | zero => intro role v; exact Finset.Subset.refl v
  | succ f ih =>
    intro role v
    by_cases h : role ∈ v
    · simp only [crh, h, if_pos]
      exact Finset.Subset.refl v
    · simp only [crh, h, if_neg, not_false_iff]
      exact Finset.Subset.trans (Finset.subset_insert role v)
        (crhList_visited_mono (crh H f) ih (H role) (insert role v))

/-- Specification of the `forEach` loop: threading the visited set through the
recursive calls, the loop marks as visited everything any list element reaches
while avoiding the incoming visited set, and collects every inherited role
together with all direct parents of every newly visited role. -/
theorem crhList_spec {H : Role → List Role}
    (crhf : Role → Finset Role → Finset Role × Finset Role) (f : Nat)
    (hmono : ∀ r v, v ⊆ (crhf r v).2)
    (hspec : ∀ r v, unvisited v ≤ f →
      (∀ x, x ∈ (crhf r v).2 ↔ x ∈ v ∨ AReach H (fun z => z ∈ v) r x) ∧
      (∀ w, w ∈ (crhf r v).1 ↔ ∃ x, AReach H (fun z => z ∈ v) r x ∧ w ∈ H x)) :
    ∀ (rs : List Role) (v : Finset Role), unvisited v ≤ f →
      (∀ x, x ∈ (crhList crhf rs v).2 ↔
        x ∈ v ∨ ∃ ir ∈ rs, AReach H (fun z => z ∈ v) ir x) ∧
      (∀ w, w ∈ (crhList crhf rs v).1 ↔
        w ∈ rs ∨ ∃ ir ∈ rs, ∃ x, AReach H (fun z => z ∈ v) ir x ∧ w ∈ H x) := by
  intro rs
  induction rs with
  | nil =>
    intro v hv
    constructor
    · intro x
      simp [crhList]
    · intro w
      simp [crhList]
  | cons ir rest ih =>
    intro v hv
    obtain ⟨hp2, hp1⟩ := hspec ir v hv
    have hv2 : unvisited (crhf ir v).2 ≤ f := le_trans (unvisited_mono (hmono ir v)) hv
    obtain ⟨hq2, hq1⟩ := ih (crhf ir v).2 hv2
    have hC : ∀ u w, AReach H (fun z => z ∈ v) ir u → w ∈ H u → ¬ w ∈ v →
        AReach H (fun z => z ∈ v) ir w := fun u w hu hw hpw => AReach.step hu hw hpw
    have hcongr : ∀ b x, AReach H (fun z => z ∈ (crhf ir v).2) b x ↔
        AReach H (fun z => z ∈ v ∨ AReach H (fun z' => z' ∈ v) ir z) b x :=
      fun b x => AReach_congr fun z => hp2 z
    constructor
    · intro x
      have hx2 : x ∈ (crhList crhf (ir :: rest) v).2 ↔ x ∈ (crhList crhf rest (crhf ir v).2).2 :=
        Iff.rfl
      rw [hx2, hq2 x]
      constructor
      · rintro (hx | ⟨b, hb, hbx⟩)
        · rcases (hp2 x).mp hx with hx' | hx'
          · exact Or.inl hx'
          · exact Or.inr ⟨ir, List.mem_cons_self ir rest, hx'⟩
        · have h' := (hcongr b x).mp hbx
          exact Or.inr ⟨b, List.mem_cons_of_mem ir hb,
            AReach_mono (fun z hz => Or.inl hz) h'⟩
      · rintro (hx | ⟨b, hb, hbx⟩)
        · exact Or.inl ((hp2 x).mpr (Or.inl hx))
        · rcases List.mem_cons.mp hb with rfl | hb'
          · exact Or.inl ((hp2 x).mpr (Or.inr hbx))
          · rcases @AReach_stability H (fun z => z ∈ v)
              (fun z => AReach H (fun z' => z' ∈ v) ir z) b x hC hbx with hCx | h'
            · exact Or.inl ((hp2 x).mpr (Or.inr hCx))
            · exact Or.inr ⟨b, hb', (hcongr b x).mpr h'⟩
    · intro w
      have hw1 : w ∈ (crhList crhf (ir :: rest) v).1 ↔
          w = ir ∨ w ∈ (crhf ir v).1 ∨ w ∈ (crhList crhf rest (crhf ir v).2).1 := by
        constructor
        · intro h
          rcases Finset.mem_insert.mp h with h | h
          · exact Or.inl h
          · rcases Finset.mem_union.mp h with h | h
            · exact Or.inr (Or.inl h)
            · exact Or.inr (Or.inr h)
        · rintro (rfl | h | h)
          · exact Finset.mem_insert_self _ _
          · exact Finset.mem_insert_of_mem (Finset.mem_union_left _ h)
          · exact Finset.mem_insert_of_mem (Finset.mem_union_right _ h)
      rw [hw1, hp1 w, hq1 w]
      constructor
      · rintro (rfl | ⟨x, hx, hwx⟩ | hrest | ⟨b, hb, x, hbx, hwx⟩)
        · exact Or.inl (List.mem_cons_self _ _)
        · exact Or.inr ⟨ir, List.mem_cons_self _ _, x, hx, hwx⟩
        · exact Or.inl (List.mem_cons_of_mem _ hrest)
        · exact Or.inr ⟨b, List.mem_cons_of_mem _ hb, x,
            AReach_mono (fun z hz => Or.inl hz) ((hcongr b x).mp hbx), hwx⟩
      · rintro (hw | ⟨b, hb, x, hbx, hwx⟩)
        · rcases List.mem_cons.mp hw with rfl | h'
          · exact Or.inl rfl
          · exact Or.inr (Or.inr (Or.inl h'))
        · rcases List.mem_cons.mp hb with rfl | hb'
          · exact Or.inr (Or.inl ⟨x, hbx, hwx⟩)
          · rcases @AReach_stability H (fun z => z ∈ v)
              (fun z => AReach H (fun z' => z' ∈ v) ir z) b x hC hbx with hCx | h'
            · exact Or.inr (Or.inl ⟨x, hCx, hwx⟩)
            · exact Or.inr (Or.inr (Or.inr ⟨b, hb', x, (hcongr b x).mpr h', hwx⟩))

/-- Specification of the closure recursion: given enough fuel (and the
TypeScript original always has enough, since every recursive call grows the
visited set), the returned visited set is the incoming one plus everything
`role` reaches while avoiding it, and the returned result set holds exactly
the direct parents of all those reached roles. -/
theorem crh_spec {H : Role → List Role} :
    ∀ (f : Nat) (role : Role) (v : Finset Role), unvisited v ≤ f →
      (∀ x, x ∈ (crh H f role v).2 ↔ x ∈ v ∨ AReach H (fun z => z ∈ v) role x) ∧
      (∀ w, w ∈ (crh H f role v).1 ↔ ∃ x, AReach H (fun z => z ∈ v) role x ∧ w ∈ H x) := by
  intro f
  induction f with
  | zero =>
    intro role v hv
    have hall := unvisited_eq_zero (Nat.le_zero.mp hv)
    constructor
    · intro x
      constructor
      · intro hx
        exact Or.inl hx
      · rintro (hx | hx)
        · exact hx
        · exact absurd (hall role) (AReach_start hx)
    · intro w
      simp only [crh, Finset.not_mem_empty, false_iff]
      rintro ⟨x, hx, _⟩
      exact absurd (hall role) (AReach_start hx)
  | succ f ihf =>
    intro role v hv
    by_cases hrv : role ∈ v
    · have hcrh : crh H (f + 1) role v = (∅, v) := by
        simp only [crh, hrv, if_pos]
      rw [hcrh]
      constructor
      · intro x
        constructor
        · intro hx
          exact Or.inl hx
        · rintro (hx | hx)
          · exact hx
          · exact absurd hrv (AReach_start hx)
      · intro w
        simp only [Finset.not_mem_empty, false_iff]
        rintro ⟨x, hx, _⟩
        exact absurd hrv (AReach_start hx)
    · have hcrh : crh H (f + 1) role v = crhList (crh H f) (H role) (insert role v) := by
        simp only [crh, hrv, if_neg, not_false_iff]
      have hv' : unvisited (insert role v) ≤ f :=
        Nat.le_of_lt_succ (lt_of_lt_of_le (unvisited_insert_lt hrv) hv)
      obtain ⟨h2, h1⟩ := crhList_spec (crh H f) f (crh_visited_mono H f) ihf
        (H role) (insert role v) hv'
      rw [hcrh]
      constructor
      · intro x
        rw [h2 x, Finset.mem_insert]
        rw [@AReach_cons_iff H v role x hrv]
        tauto
      · intro w
        rw [h1 w]
        constructor
        · rintro (hw | ⟨ir, hir, x, hx, hwx⟩)
          · exact ⟨role, AReach.refl hrv, hw⟩
          · exact ⟨x, (@AReach_cons_iff H v role x hrv).mpr (Or.inr ⟨ir, hir, hx⟩), hwx⟩
        · rintro ⟨x, hx, hwx⟩
          rcases (@AReach_cons_iff H v role x hrv).mp hx with rfl | ⟨ir, hir, hx'⟩
          · exact Or.inl hwx
          · exact Or.inr ⟨ir, hir, x, hx', hwx⟩

/-- The cached hierarchy closure of a role contains exactly the roles
reachable from it by one or more inheritance edges — for every hierarchy
table, cyclic ones included. -/
theorem computeRoleHierarchy_mem (H : Role → List Role) (role x : Role) :
    x ∈ computeRoleHierarchy H role ↔ Relation.TransGen (hEdge H) role x := by
  have hfuel : unvisited (∅ : Finset Role) ≤ Fintype.card Role := by
    simp [unvisited]
  have h := (@crh_spec H (Fintype.card Role) role ∅ hfuel).2 x
  rw [computeRoleHierarchy, h, Relation.TransGen.tail'_iff]
  constructor
  · rintro ⟨y, hy, hw⟩
    exact ⟨y, AReach_empty_iff.mp hy, hw⟩
  · rintro ⟨y, hy, hw⟩
    exact ⟨y, AReach_empty_iff.mpr hy, hw⟩

/-- Fuel does not matter once it covers the number of unvisited roles: the
visited-set guard alone bounds the recursion, for every hierarchy table,
cyclic ones included.  This is the termination argument of the TypeScript
recursion, which has no fuel. -/
theorem crh_fuel_irrelevant (H : Role → List Role) (f g : Nat) (role : Role) (v : Finset Role)
    (hf : unvisited v ≤ f) (hg : unvisited v ≤ g) :
    crh H f role v = crh H g role v := by
  obtain ⟨hf2, hf1⟩ := @crh_spec H f role v hf
  obtain ⟨hg2, hg1⟩ := @crh_spec H g role v hg
  refine Prod.ext ?_ ?_
  · exact Finset.ext fun w => by rw [hf1 w, hg1 w]
  · exact Finset.ext fun x => by rw [hf2 x, hg2 x]

/-- Transitivity of the cached hierarchy closure, for every table. -/
theorem computeRoleHierarchy_trans (H : Role → List Role) {r a b : Role}
    (ha : a ∈ computeRoleHierarchy H r) (hb : b ∈ computeRoleHierarchy H a) :
    b ∈ computeRoleHierarchy H r := by
  rw [computeRoleHierarchy_mem] at ha hb ⊢
  exact Relation.TransGen.trans ha hb

/-- A ranking function decreasing along every inheritance edge certifies
acyclicity. -/
theorem acyclic_of_rank (H : Role → List Role) (rank : Role → Nat)
    (hr : ∀ a b : Role, b ∈ H a → rank b < rank a) : Acyclic H := by
  intro r hcyc
  have hlt : ∀ a b : Role, Relation.TransGen (hEdge H) a b → rank b < rank a := by
    intro a b h
    induction h with
    | single h1 => exact hr _ _ h1
    | tail _ hbc ih => exact lt_trans (hr _ _ hbc) ih
  exact absurd (hlt r r hcyc) (lt_irrefl _)

/-- Seniority rank of the shipped hierarchy. -/
def shippedRank : Role → Nat
  | USER => 0
  | PREMIUM_USER => 1
  | MANAGER => 2
  | ADMIN => 3
  | SUPER_ADMIN => 4

/-- The shipped `RoleHierarchy` configuration is acyclic. -/
theorem shipped_acyclic : Acyclic RoleHierarchy :=
  acyclic_of_rank RoleHierarchy shippedRank (by decide)

/-- Membership in the cached permission closure: the role's own grants plus
the grants of every role in its cached hierarchy closure. -/
theorem computeRolePermissions_mem (H : Role → List Role) (P : Role → List Permission)
    (role : Role) (q : Permission) :
    q ∈ computeRolePermissions H P role ↔
      q ∈ P role ∨ ∃ a ∈ computeRoleHierarchy H role, q ∈ P a := by
  simp [computeRolePermissions]

/-- Boolean-to-propositional characterization of `hasPermission`. -/
theorem hasPermission_iff (H : Role → List Role) (P : Role → List Permission)
    (ctx : PermissionContext) (p : Permission) :
    hasPermission H P ctx p = true ↔
      p ∈ ctx.permissions ∨ ∃ role ∈ ctx.roles, p ∈ computeRolePermissions H P role := by
  by_cases hp : p ∈ ctx.permissions
  · simp [hasPermission, hp]
  · simp [hasPermission, hasPermissionThroughRole, hp]

/-- Monotonicity of `hasPermission` in the principal context: growing the
role list or the direct permission list preserves a true answer. -/
theorem hasPermission_mono (H : Role → List Role) (P : Role → List Permission)
    {ctx ctx' : PermissionContext}
    (hr : ∀ r ∈ ctx.roles, r ∈ ctx'.roles)
    (hp : ∀ q ∈ ctx.permissions, q ∈ ctx'.permissions)
    {p : Permission} (h : hasPermission H P ctx p = true) :
    hasPermission H P ctx' p = true := by
  rw [hasPermission_iff] at h ⊢
  rcases h with h | ⟨role, hrole, h⟩
  · exact Or.inl (hp _ h)
  · exact Or.inr ⟨role, hr _ hrole, h⟩

/-- The permission closure written the way the specification words it: the
directly granted permissions of the role, union the directly granted
permissions of every role in its hierarchy closure. -/
def specPermissionClosure (H : Role → List Role) (P : Role → List Permission)
    (r : Role) : Finset Permission :=
  (P r).toFinset ∪ (computeRoleHierarchy H r).biUnion fun a => (P a).toFinset

/-- C1: for every acyclic hierarchy table and every role `r`, the cached
hierarchy closure computed for `r` equals the set of roles reachable from `r`
by following one or more inheritance edges, and in particular never contains
`r` itself. -/
theorem claimC1 (H : Role → List Role) (hacyc : Acyclic H) (r x : Role) :
    (x ∈ computeRoleHierarchy H r ↔ Relation.TransGen (hEdge H) r x) ∧
    r ∉ computeRoleHierarchy H r := by
  refine ⟨computeRoleHierarchy_mem H r x, ?_⟩
  intro hr
  exact hacyc r ((computeRoleHierarchy_mem H r r).mp hr)

theorem claimC1_witness :
    Acyclic RoleHierarchy ∧
    ((MANAGER ∈ computeRoleHierarchy RoleHierarchy ADMIN ↔
        Relation.TransGen (hEdge RoleHierarchy) ADMIN MANAGER) ∧
      ADMIN ∉ computeRoleHierarchy RoleHierarchy ADMIN) :=
  ⟨shipped_acyclic, claimC1 RoleHierarchy shipped_acyclic ADMIN MANAGER⟩

/-- C2: for every role `r`, the cached permission closure equals the union of
`r`'s direct grants with the direct grants of every role in `r`'s cached
hierarchy closure; consequently it contains `r`'s direct grants and the
permission closure of every role in `r`'s hierarchy closure (stated here
under an acyclic configuration, as the claim does). -/
theorem claimC2 (H : Role → List Role) (P : Role → List Permission)
    (_hacyc : Acyclic H) (r a : Role) :
    computeRolePermissions H P r = specPermissionClosure H P r ∧
    (P r).toFinset ⊆ computeRolePermissions H P r ∧
    (a ∈ computeRoleHierarchy H r →
      computeRolePermissions H P a ⊆ computeRolePermissions H P r) := by
  refine ⟨by simp [computeRolePermissions, specPermissionClosure], ?_, ?_⟩
  · intro q hq
    rw [List.mem_toFinset] at hq
    exact (computeRolePermissions_mem H P r q).mpr (Or.inl hq)
  · intro ha q hq
    rcases (computeRolePermissions_mem H P a q).mp hq with h' | ⟨b, hb, h'⟩
    · exact (computeRolePermissions_mem H P r q).mpr (Or.inr ⟨a, ha, h'⟩)
    · exact (computeRolePermissions_mem H P r q).mpr
        (Or.inr ⟨b, computeRoleHierarchy_trans H ha hb, h'⟩)

theorem claimC2_witness :
    Acyclic RoleHierarchy ∧
    MANAGER ∈ computeRoleHierarchy RoleHierarchy ADMIN ∧
    (computeRolePermissions RoleHierarchy RoleBasedPermissions ADMIN =
        specPermissionClosure RoleHierarchy RoleBasedPermissions ADMIN ∧
      (RoleBasedPermissions ADMIN).toFinset ⊆
        computeRolePermissions RoleHierarchy RoleBasedPermissions ADMIN ∧
      computeRolePermissions RoleHierarchy RoleBasedPermissions MANAGER ⊆
        computeRolePermissions RoleHierarchy RoleBasedPermissions ADMIN) :=
  ⟨shipped_acyclic, by decide,
    (claimC2 RoleHierarchy RoleBasedPermissions shipped_acyclic ADMIN MANAGER).1,
    (claimC2 RoleHierarchy RoleBasedPermissions shipped_acyclic ADMIN MANAGER).2.1,
    (claimC2 RoleHierarchy RoleBasedPermissions shipped_acyclic ADMIN MANAGER).2.2
      (by decide)⟩

/-- C3: `hasPermission(p)` is true exactly when `p` is directly granted to
the principal or some held role has `p` in its cached permission closure; it
is a total Boolean function, and a permission granted nowhere in the
configuration and not held directly yields `false`. -/
theorem claimC3 (H : Role → List Role) (P : Role → List Permission)
    (ctx : PermissionContext) (p : Permission) :
    (hasPermission H P ctx p = true ↔
      p ∈ ctx.permissions ∨ ∃ role ∈ ctx.roles, p ∈ computeRolePermissions H P role) ∧
    (¬ grantedSomewhere P p → p ∉ ctx.permissions → hasPermission H P ctx p = false) := by
  refine ⟨hasPermission_iff H P ctx p, ?_⟩
  intro hnw hnd
  rcases Bool.eq_false_or_eq_true (hasPermission H P ctx p) with hb | hb
  · exfalso
    rcases (hasPermission_iff H P ctx p).mp hb with h | ⟨role, _, h⟩
    · exact hnd h
    · rcases (computeRolePermissions_mem H P role p).mp h with h' | ⟨a, _, h'⟩
      · exact hnw ⟨role, h'⟩
      · exact hnw ⟨a, h'⟩
  · exact hb

theorem claimC3_witness :
    ¬ grantedSomewhere (fun _ : Role => ([] : List Permission)) PRODUCT_READ ∧
    PRODUCT_READ ∉ ([] : List Permission) ∧
    hasPermission RoleHierarchy (fun _ : Role => ([] : List Permission))
      ⟨[USER], []⟩ PRODUCT_READ = false :=
  ⟨fun ⟨_, hr⟩ => (List.not_mem_nil _) hr, List.not_mem_nil _,
    (claimC3 RoleHierarchy (fun _ : Role => ([] : List Permission)) ⟨[USER], []⟩
        PRODUCT_READ).2
      (fun ⟨_, hr⟩ => (List.not_mem_nil _) hr) (List.not_mem_nil _)⟩

/-- C4: `hasRole(r)` is true exactly when the principal's role list contains
`r` or some role in the list has `r` in its cached hierarchy closure. -/
theorem claimC4 (H : Role → List Role) (ctx : PermissionContext) (r : Role) :
    hasRole H ctx r = true ↔
      r ∈ ctx.roles ∨ ∃ role ∈ ctx.roles, r ∈ computeRoleHierarchy H role := by
  simp only [hasRole, List.any_eq_true, Bool.or_eq_true, decide_eq_true_eq]
  constructor
  · rintro ⟨role, hrole, h | h⟩
    · exact Or.inr ⟨role, hrole, h⟩
    · subst h
      exact Or.inl hrole
  · rintro (h | ⟨role, hrole, h⟩)
    · exact ⟨r, h, Or.inr rfl⟩
    · exact ⟨role, hrole, Or.inl h⟩

/-- C5: `getMaxRole()` on a non-empty role list is the left fold seeded with
the first role, replacing the candidate exactly when the candidate's cached
closure does not contain the examined role; under the shipped configuration a
principal holding `[USER, ADMIN]` gets `ADMIN`. -/
theorem claimC5 (H : Role → List Role) (ctx : PermissionContext)
    (r0 : Role) (rest : List Role) (hroles : ctx.roles = r0 :: rest) :
    getMaxRole H ctx =
      some ((r0 :: rest).foldl
        (fun maxRole currentRole =>
          if currentRole ∈ computeRoleHierarchy H maxRole then maxRole else currentRole)
        r0) ∧
    getMaxRole RoleHierarchy ⟨[USER, ADMIN], []⟩ = some ADMIN := by
  constructor
  · obtain ⟨roles, perms⟩ := ctx
    obtain rfl : roles = r0 :: rest := hroles
    rfl
  · decide

theorem claimC5_witness :
    (⟨[USER, ADMIN], []⟩ : PermissionContext).roles = USER :: [ADMIN] ∧
    (getMaxRole RoleHierarchy ⟨[USER, ADMIN], []⟩ =
        some ((USER :: [ADMIN]).foldl
          (fun maxRole currentRole =>
            if currentRole ∈ computeRoleHierarchy RoleHierarchy maxRole then maxRole
            else currentRole)
          USER) ∧
      getMaxRole RoleHierarchy ⟨[USER, ADMIN], []⟩ = some ADMIN) :=
  ⟨rfl, claimC5 RoleHierarchy ⟨[USER, ADMIN], []⟩ USER [ADMIN] rfl⟩

/-- C6: the closure recursion terminates for every hierarchy table, cyclic
ones included: the visited set bounds the recursion depth, so the computed
value is independent of the fuel once the fuel covers the unvisited count
(the TypeScript recursion carries no fuel at all, only the visited guard).
`computeRolePermissions` contains no recursive call, so construction always
completes. -/
theorem claimC6 (H : Role → List Role) (f g : Nat) (role : Role) (v : Finset Role)
    (hf : unvisited v ≤ f) (hg : unvisited v ≤ g) :
    crh H f role v = crh H g role v :=
  crh_fuel_irrelevant H f g role v hf hg

theorem claimC6_witness :
    unvisited (∅ : Finset Role) ≤ 5 ∧ unvisited (∅ : Finset Role) ≤ 9 ∧
    crh (fun _ : Role => [SUPER_ADMIN]) 5 USER ∅ =
      crh (fun _ : Role => [SUPER_ADMIN]) 9 USER ∅ :=
  ⟨by decide, by decide,
    claimC6 (fun _ : Role => [SUPER_ADMIN]) 5 9 USER ∅ (by decide) (by decide)⟩

/-- C7: `hasPermissions(ps)` is true exactly when `hasPermission` holds of
every element of `ps`, `hasAnyPermission(ps)` exactly when it holds of some
element; on the empty list they are `true` and `false` respectively. -/
theorem claimC7 (H : Role → List Role) (P : Role → List Permission)
    (ctx : PermissionContext) (ps : List Permission) :
    (hasPermissions H P ctx ps = true ↔ ∀ p ∈ ps, hasPermission H P ctx p = true) ∧
    (hasAnyPermission H P ctx ps = true ↔ ∃ p ∈ ps, hasPermission H P ctx p = true) ∧
    hasPermissions H P ctx [] = true ∧
    hasAnyPermission H P ctx [] = false := by
  refine ⟨?_, ?_, rfl, rfl⟩
  · simp [hasPermissions]
  · simp [hasAnyPermission]

/-- C8: membership in the cached hierarchy closure is transitive: if `a` is
in the closure of `r` and `b` in the closure of `a`, then `b` is in the
closure of `r`. -/
theorem claimC8 (H : Role → List Role) (r a b : Role)
    (ha : a ∈ computeRoleHierarchy H r) (hb : b ∈ computeRoleHierarchy H a) :
    b ∈ computeRoleHierarchy H r :=
  computeRoleHierarchy_trans H ha hb

theorem claimC8_witness :
    ADMIN ∈ computeRoleHierarchy RoleHierarchy SUPER_ADMIN ∧
    MANAGER ∈ computeRoleHierarchy RoleHierarchy ADMIN ∧
    MANAGER ∈ computeRoleHierarchy RoleHierarchy SUPER_ADMIN :=
  ⟨by decide, by decide,
    claimC8 RoleHierarchy SUPER_ADMIN ADMIN MANAGER (by decide) (by decide)⟩

/-- C9: `hasPermission` is monotonic in the principal context: a true answer
survives adding a role to the role list or a permission to the direct
permission list. -/
theorem claimC9 (H : Role → List Role) (P : Role → List Permission)
    (ctx : PermissionContext) (p : Permission) (r : Role) (q : Permission)
    (h : hasPermission H P ctx p = true) :
    hasPermission H P ⟨r :: ctx.roles, ctx.permissions⟩ p = true ∧
    hasPermission H P ⟨ctx.roles, q :: ctx.permissions⟩ p = true := by
  constructor
  · exact @hasPermission_mono H P ctx ⟨r :: ctx.roles, ctx.permissions⟩
      (fun x hx => List.mem_cons_of_mem _ hx) (fun y hy => hy) p h
  · exact @hasPermission_mono H P ctx ⟨ctx.roles, q :: ctx.permissions⟩
      (fun x hx => hx) (fun y hy => List.mem_cons_of_mem _ hy) p h

theorem claimC9_witness :
    hasPermission RoleHierarchy RoleBasedPermissions ⟨[USER], []⟩ PRODUCT_READ = true ∧
    (hasPermission RoleHierarchy RoleBasedPermissions
        ⟨[ADMIN, USER], []⟩ PRODUCT_READ = true ∧
      hasPermission RoleHierarchy RoleBasedPermissions
        ⟨[USER], [USER_DELETE]⟩ PRODUCT_READ = true) :=
  ⟨by decide,
    claimC9 RoleHierarchy RoleBasedPermissions ⟨[USER], []⟩ PRODUCT_READ ADMIN USER_DELETE
      (by decide)⟩

/-- C10: on an empty principal role list, `getMaxRole()` returns the absence
value (the `undefined` seed `roles[0]`, modelled as `none`) instead of
raising an error. -/
theorem claimC10 (H : Role → List Role) (ctx : PermissionContext)
    (h : ctx.roles = []) : getMaxRole H ctx = none := by
  obtain ⟨roles, perms⟩ := ctx
  obtain rfl : roles = [] := h
  rfl

theorem claimC10_witness : getMaxRole RoleHierarchy ⟨[], []⟩ = none :=
  claimC10 RoleHierarchy ⟨[], []⟩ rfl
